import Mathlib

/-!
Verification of the Obsidian-Live-Sync-Backup core against its specification.

This file gives a shallow embedding, over `List Char` / `String`, `Nat` bytes and
explicit state passing, of:

* `src/path_safety.ts` — `isPathSafe`, `sanitizePath` (with a faithful model of the
  Deno std posix `normalize` / `join` / `isAbsolute` used by that module; the tool
  runs on linux per its Dockerfile, so the posix flavour applies);
* `src/crypto.ts` — format detection (`isV2Encrypted`), dispatch (`decryptV2`),
  the two decoders (`decryptHKDF`, `decryptV2Legacy`), the master-key cache
  (`setPBKDF2Salt`, `getHKDFMasterKey`) and `decryptChunk`.  The WebCrypto
  primitives (PBKDF2 / HKDF / AES-GCM) are the platform boundary: the embedding
  stops at the exact derivation/decryption request handed to `crypto.subtle`,
  representing derived keys symbolically by the inputs that determine them
  (WebCrypto derivation is deterministic);
* `src/extractor.ts` — `getChunkData`, `reassembleFile`, `writeFileSafely` and
  `extractAll`, with the chunk decryptor, the chunk cache and the fallback
  network fetch passed in as parameters (they are the imported collaborators),
  and the filesystem write modelled as an emitted write record.
-/

/-! ## JS string primitives used by path_safety.ts -/

/-- The whitespace set of JavaScript `String.prototype.trim`
(ECMAScript WhiteSpace ∪ LineTerminator). -/
def jsWsChar (c : Char) : Bool :=
  c == ' ' || c == '\t' || c == '\n' || c == '\x0b' || c == '\x0c' || c == '\r' ||
  c == '\xa0' || c == '\u1680' ||
  (decide (0x2000 ≤ c.toNat) && decide (c.toNat ≤ 0x200a)) ||
  c == '\u2028' || c == '\u2029' || c == '\u202f' || c == '\u205f' ||
  c == '\u3000' || c == '\ufeff'

/-- JS `s.trim()` on the character list. -/
def trimEnds (l : List Char) : List Char :=
  ((l.dropWhile jsWsChar).reverse.dropWhile jsWsChar).reverse

/-- JS `s.trim()`. -/
def jsTrim (s : String) : String := String.mk (trimEnds s.data)

/-- One character of `replace(/\\/g, "/")`. -/
def replChar (c : Char) : Char := if c == '\\' then '/' else c

/-- JS `s.replace(/\\/g, "/")`. -/
def replaceBackslashes (s : String) : String := String.mk (s.data.map replChar)

/-- Tail of `replace(/\/+/g, "/")`: `prev` is the last character kept so far;
a slash following a kept slash is dropped. -/
def squeezeAux (prev : Char) : List Char → List Char
  | [] => []
  | c :: rest =>
    if prev == '/' && c == '/' then squeezeAux prev rest
    else c :: squeezeAux c rest

/-- JS `s.replace(/\/+/g, "/")`: collapse each maximal run of slashes to one. -/
def squeezeSlashes : List Char → List Char
  | [] => []
  | c :: rest => c :: squeezeAux c rest

/-- `sanitizePath` from src/path_safety.ts:
trim whitespace, backslashes to forward slashes, collapse repeated slashes. -/
def sanitizePath (filePath : String) : String :=
  String.mk (squeezeSlashes ((trimEnds filePath.data).map replChar))

/-! ## posix path model (Deno std 0.208 `normalize` / `join` / `isAbsolute`) -/

/-- JS `s.split("/")` on character lists. -/
def splitSlash : List Char → List (List Char)
  | [] => [[]]
  | c :: rest =>
    if c == '/' then [] :: splitSlash rest
    else
      match splitSlash rest with
      | s :: ss => (c :: s) :: ss
      | [] => [[c]]

/-- One segment step of Deno std `normalizeString`: `stack` holds the emitted
segments in reverse order; `allowAboveRoot` is `!isAbsolute`. -/
def posixNormStep (allowAboveRoot : Bool) (stack : List (List Char))
    (seg : List Char) : List (List Char) :=
  if seg = [] ∨ seg = ['.'] then stack
  else if seg = ['.', '.'] then
    match stack with
    | [] => if allowAboveRoot then [['.', '.']] else []
    | top :: rest =>
      if top = ['.', '.'] then
        (if allowAboveRoot then ['.', '.'] :: stack else stack)
      else rest
  else seg :: stack

/-- Join segments with `'/'` (the inverse of `splitSlash` on clean segments). -/
def joinSegs : List (List Char) → List Char
  | [] => []
  | [s] => s
  | s :: t :: rest => s ++ '/' :: joinSegs (t :: rest)

/-- Deno std 0.208 posix `normalize` on character lists: lexically resolve
`.` and `..`, collapse slashes, keep a trailing slash, keep absoluteness. -/
def posixNormalizeL (l : List Char) : List Char :=
  if l = [] then ['.']
  else
    let abs : Bool := match l with | c :: _ => c == '/' | [] => false
    let trailing : Bool := l.getLast? == some '/'
    let segs := ((splitSlash l).foldl (posixNormStep !abs) []).reverse
    let body := joinSegs segs
    let body := if body = [] ∧ abs = false then ['.'] else body
    let body := if ¬ (body = []) ∧ trailing = true then body ++ ['/'] else body
    if abs then '/' :: body else body

/-- Deno std 0.208 posix `normalize`. -/
def posixNormalize (p : String) : String := String.mk (posixNormalizeL p.data)

/-- Deno std 0.208 posix `join` of two paths: concatenate the non-empty parts
with `/` and normalize (`.` when both are empty). -/
def posixJoinL (a b : List Char) : List Char :=
  if a = [] ∧ b = [] then ['.']
  else if a = [] then posixNormalizeL b
  else if b = [] then posixNormalizeL a
  else posixNormalizeL (a ++ '/' :: b)

/-- Deno std 0.208 posix `join` of two paths. -/
def posixJoin (a b : String) : String := String.mk (posixJoinL a.data b.data)

/-- Deno std posix `isAbsolute` on character lists. -/
def posixIsAbsoluteL (l : List Char) : Bool :=
  match l with | c :: _ => c == '/' | [] => false

/-- JS `s.startsWith(pre)` on character lists. -/
def jsStartsWithL (l pre : List Char) : Bool := decide (l.take pre.length = pre)

/-- JS regex test `/^[a-zA-Z]:/`. -/
def isAsciiLetter (c : Char) : Bool :=
  (decide ('a' ≤ c) && decide (c ≤ 'z')) || (decide ('A' ≤ c) && decide (c ≤ 'Z'))

/-- JS regex test `/^[a-zA-Z]:/` (Windows drive-letter check). -/
def windowsDriveTestL (l : List Char) : Bool :=
  match l with
  | c1 :: c2 :: _ => isAsciiLetter c1 && c2 == ':'
  | _ => false

/-- `isPathSafe` from src/path_safety.ts, translated check for check.
(`if (!filePath || filePath.trim() === "")`; null bytes; bare `.`/`..`;
backslash unification; absolute-path and drive-letter rejection; then the
normalize-join containment test with its string `startsWith` and the
non-empty `relativePart` check.) -/
def isPathSafe (filePath baseDir : String) : Bool :=
  let fp := filePath.data
  if fp = [] ∨ trimEnds fp = [] then false
  else if '\x00' ∈ fp then false
  else if fp = ['.'] ∨ fp = ['.', '.'] then false
  else
    let normalizedInput := fp.map replChar
    if posixIsAbsoluteL normalizedInput = true ∨
        jsStartsWithL normalizedInput ['/'] = true then false
    else if windowsDriveTestL normalizedInput = true then false
    else
      let fullPath := posixNormalizeL (posixJoinL baseDir.data normalizedInput)
      let normalizedBase := posixNormalizeL baseDir.data
      if ¬ (jsStartsWithL fullPath normalizedBase = true) then false
      else
        let relativePart := fullPath.drop normalizedBase.length
        if relativePart = [] ∧ ¬ (normalizedInput = []) then false
        else true

/-- `requireSafePath` from src/path_safety.ts: validate, then sanitize. -/
def requireSafePath (filePath baseDir : String) : Except String String :=
  if isPathSafe filePath baseDir = false then
    .error ("Unsafe path rejected: " ++ filePath)
  else .ok (sanitizePath filePath)

example : posixNormalize "/backup/../backup2/evil" = "/backup2/evil" := by decide
example : posixNormalize "/backup/foo/../" = "/backup/" := by decide
example : posixJoin "/backup" "notes/my-note.md" = "/backup/notes/my-note.md" := by decide
example : posixNormalize "/" = "/" := by decide
example : posixNormalize "./" = "./" := by decide
example : isPathSafe "notes/my-note.md" "/backup" = true := by decide
example : isPathSafe "../../../etc/passwd" "/backup" = false := by decide
example : isPathSafe "./file.md" "/backup" = true := by decide
example : isPathSafe "foo/../../bar" "/backup" = false := by decide
example : isPathSafe "..\\..\\Windows" "/backup" = false := by decide
example : isPathSafe "../backup2/evil" "/backup" = true := by decide
example : sanitizePath "foo//bar" = "foo/bar" := by decide
example : sanitizePath "  file.md  " = "file.md" := by decide
example : sanitizePath "foo\\bar" = "foo/bar" := by decide

/-! ## Supporting lemmas about the sanitizer -/

theorem squeezeAux_subset {a : Char} (prev : Char) (l : List Char)
    (h : a ∈ squeezeAux prev l) : a ∈ l := by
  induction l generalizing prev with
  | nil => simpa [squeezeAux] using h
  | cons c rest ih =>
    simp only [squeezeAux] at h
    split at h
    · exact List.mem_cons_of_mem _ (ih prev h)
    · rcases List.mem_cons.mp h with h | h
      · exact h ▸ List.mem_cons_self _ _
      · exact List.mem_cons_of_mem _ (ih c h)

theorem squeezeSlashes_subset {a : Char} {l : List Char}
    (h : a ∈ squeezeSlashes l) : a ∈ l := by
  cases l with
  | nil => simpa [squeezeSlashes] using h
  | cons c rest =>
    simp only [squeezeSlashes] at h
    rcases List.mem_cons.mp h with h | h
    · exact h ▸ List.mem_cons_self _ _
    · exact List.mem_cons_of_mem _ (squeezeAux_subset c rest h)

/-- No two adjacent slashes. -/
def noAdjSlash : List Char → Bool
  | a :: b :: rest => !(a == '/' && b == '/') && noAdjSlash (b :: rest)
  | _ => true

theorem noAdjSlash_squeezeAux (l : List Char) :
    ∀ prev, noAdjSlash (prev :: squeezeAux prev l) = true := by
  induction l with
  | nil => intro prev; rfl
  | cons c rest ih =>
    intro prev
    simp only [squeezeAux]
    split
    · exact ih prev
    · rename_i hcond
      simp only [noAdjSlash, Bool.and_eq_true, Bool.not_eq_true']
      exact ⟨by simpa using hcond, ih c⟩

theorem noAdjSlash_squeezeSlashes (l : List Char) :
    noAdjSlash (squeezeSlashes l) = true := by
  cases l with
  | nil => rfl
  | cons c rest => exact noAdjSlash_squeezeAux rest c

theorem squeezeAux_eq_self (l : List Char) :
    ∀ prev, noAdjSlash (prev :: l) = true → squeezeAux prev l = l := by
  induction l with
  | nil => intro _ _; rfl
  | cons c rest ih =>
    intro prev h
    simp only [noAdjSlash, Bool.and_eq_true, Bool.not_eq_true'] at h
    obtain ⟨h1, h2⟩ := h
    simp only [squeezeAux, h1, Bool.false_eq_true, if_false]
    rw [ih c h2]

theorem squeezeSlashes_eq_self {l : List Char} (h : noAdjSlash l = true) :
    squeezeSlashes l = l := by
  cases l with
  | nil => rfl
  | cons c rest =>
    simp only [squeezeSlashes]
    rw [squeezeAux_eq_self rest c h]

theorem squeezeAux_getLast (l : List Char) : ∀ prev,
    (prev :: squeezeAux prev l).getLast? = (prev :: l).getLast? ∨
    (prev :: squeezeAux prev l).getLast? = some '/' := by
  induction l with
  | nil => intro _; left; rfl
  | cons c rest ih =>
    intro prev
    simp only [squeezeAux]
    split
    · rename_i hcond
      have hprev : prev = '/' := by
        have := (Bool.and_eq_true _ _).mp hcond
        simpa using this.1
      rcases ih prev with h | h
      · cases rest with
        | nil => right; rw [h]; simp [hprev]
        | cons d rest' =>
          left
          rw [h, List.getLast?_cons_cons, List.getLast?_cons_cons,
            List.getLast?_cons_cons]
      · right; exact h
    · rcases ih c with h | h
      · left
        rw [List.getLast?_cons_cons, h, List.getLast?_cons_cons]
      · right
        rw [List.getLast?_cons_cons, h]

theorem squeezeSlashes_getLast (l : List Char) :
    (squeezeSlashes l).getLast? = l.getLast? ∨
    (squeezeSlashes l).getLast? = some '/' := by
  cases l with
  | nil => left; rfl
  | cons c rest => exact squeezeAux_getLast rest c

theorem dropWhile_head_not {p : Char → Bool} {l : List Char} {c : Char}
    (h : (l.dropWhile p).head? = some c) : p c = false := by
  induction l with
  | nil => simp [List.dropWhile] at h
  | cons a rest ih =>
    rw [List.dropWhile_cons] at h
    split at h
    · exact ih h
    · rename_i ha
      simp only [List.head?_cons, Option.some.injEq] at h
      subst h
      exact Bool.not_eq_true _ ▸ Bool.of_not_eq_true ha

theorem dropWhile_eq_self_of_head {p : Char → Bool} {l : List Char}
    (h : ∀ c, l.head? = some c → p c = false) : l.dropWhile p = l := by
  cases l with
  | nil => rfl
  | cons a rest =>
    rw [List.dropWhile_cons, if_neg]
    simp [h a rfl]

theorem mem_dropWhile_of_not {p : Char → Bool} {a : Char} (ha : p a = false) :
    ∀ {l : List Char}, a ∈ l → a ∈ l.dropWhile p := by
  intro l
  induction l with
  | nil => intro h; exact absurd h (List.not_mem_nil a)
  | cons b rest ih =>
    intro h
    rw [List.dropWhile_cons]
    split
    · rename_i hb
      rcases List.mem_cons.mp h with h | h
      · subst h; rw [ha] at hb; exact absurd hb (by simp)
      · exact ih h
    · exact h

theorem dropWhile_getLast {p : Char → Bool} {l : List Char}
    (h : l.dropWhile p ≠ []) : (l.dropWhile p).getLast? = l.getLast? := by
  induction l with
  | nil => rfl
  | cons a rest ih =>
    rw [List.dropWhile_cons]
    rw [List.dropWhile_cons] at h
    split
    · rename_i ha
      split at h
      · have hrest : rest ≠ [] := by
          intro hr; subst hr; simp [List.dropWhile] at h
        rw [ih h]
        cases rest with
        | nil => exact absurd rfl hrest
        | cons b rest' => rw [List.getLast?_cons_cons]
      · rename_i hna; exact absurd ha hna
    · rfl

theorem trimEnds_head {l : List Char} {c : Char}
    (h : (trimEnds l).head? = some c) : jsWsChar c = false := by
  unfold trimEnds at h
  rw [List.head?_reverse] at h
  have hne : (l.dropWhile jsWsChar).reverse.dropWhile jsWsChar ≠ [] := by
    intro he; rw [he] at h; simp at h
  rw [dropWhile_getLast hne, List.getLast?_reverse] at h
  exact dropWhile_head_not h

theorem trimEnds_getLast {l : List Char} {c : Char}
    (h : (trimEnds l).getLast? = some c) : jsWsChar c = false := by
  unfold trimEnds at h
  rw [List.getLast?_reverse] at h
  exact dropWhile_head_not h

theorem trimEnds_eq_self {l : List Char}
    (hh : ∀ c, l.head? = some c → jsWsChar c = false)
    (hl : ∀ c, l.getLast? = some c → jsWsChar c = false) : trimEnds l = l := by
  unfold trimEnds
  rw [dropWhile_eq_self_of_head hh]
  rw [dropWhile_eq_self_of_head (fun c hc => hl c (List.head?_reverse l ▸ hc))]
  exact List.reverse_reverse l

theorem mem_trimEnds {a : Char} (ha : jsWsChar a = false) {l : List Char}
    (h : a ∈ l) : a ∈ trimEnds l := by
  unfold trimEnds
  rw [List.mem_reverse]
  exact mem_dropWhile_of_not ha (List.mem_reverse.mpr (mem_dropWhile_of_not ha h))

theorem replChar_not_ws {c : Char} (h : jsWsChar c = false) :
    jsWsChar (replChar c) = false := by
  unfold replChar
  split
  · decide
  · exact h

theorem replChar_ne_backslash (c : Char) : replChar c ≠ '\\' := by
  unfold replChar
  split
  · decide
  · rename_i h
    simpa using h

theorem map_replChar_eq_self {l : List Char} (h : ∀ c ∈ l, c ≠ '\\') :
    l.map replChar = l := by
  induction l with
  | nil => rfl
  | cons a rest ih =>
    have ha : replChar a = a := by
      unfold replChar
      rw [if_neg]
      simp [h a (List.mem_cons_self a rest)]
    rw [List.map_cons, ha, ih (fun c hc => h c (List.mem_cons_of_mem a hc))]

theorem squeezeSlashes_head (l : List Char) :
    (squeezeSlashes l).head? = l.head? := by
  cases l <;> rfl

theorem getLast?_map (f : Char → Char) (l : List Char) :
    (l.map f).getLast? = (l.getLast?).map f := by
  rcases l.eq_nil_or_concat with rfl | ⟨l', a, rfl⟩
  · rfl
  · simp

theorem sanitize_key (l : List Char) :
    squeezeSlashes ((trimEnds (squeezeSlashes ((trimEnds l).map replChar))).map replChar)
      = squeezeSlashes ((trimEnds l).map replChar) := by
  set X := (trimEnds l).map replChar with hX
  set m := squeezeSlashes X with hm
  have h1 : trimEnds m = m := by
    apply trimEnds_eq_self
    · intro c hc
      rw [hm, squeezeSlashes_head, hX, List.head?_map] at hc
      obtain ⟨d, hd, hdc⟩ := Option.map_eq_some'.mp hc
      exact hdc ▸ replChar_not_ws (trimEnds_head hd)
    · intro c hc
      rcases squeezeSlashes_getLast X with h | h
      · rw [hm, h, hX, getLast?_map] at hc
        obtain ⟨d, hd, hdc⟩ := Option.map_eq_some'.mp hc
        exact hdc ▸ replChar_not_ws (trimEnds_getLast hd)
      · rw [hm, h] at hc
        obtain rfl : c = '/' := by simpa using hc.symm
        decide
  have h2 : m.map replChar = m := by
    apply map_replChar_eq_self
    intro c hc
    have hcX : c ∈ X := squeezeSlashes_subset (hm ▸ hc)
    rw [hX] at hcX
    obtain ⟨d, _, hdc⟩ := List.mem_map.mp hcX
    exact hdc ▸ replChar_ne_backslash d
  have h3 : squeezeSlashes m = m :=
    squeezeSlashes_eq_self (hm ▸ noAdjSlash_squeezeSlashes X)
  rw [h1, h2, h3]

/-- C9: `sanitizePath` is idempotent — for every input string `p`,
`sanitizePath (sanitizePath p) = sanitizePath p`: trimming whitespace,
converting backslashes to forward slashes, and collapsing repeated slashes
a second time changes nothing. -/
theorem sanitizePath_idempotent (p : String) :
    sanitizePath (sanitizePath p) = sanitizePath p :=
  congrArg String.mk (sanitize_key p.data)

/-- C1: refuted on the code (code bug).  `isPathSafe` accepts
`"../backup2/evil"` against base `"/backup"`, yet the backslash-converted,
joined and lexically normalized path is `"/backup2/evil"`, which is neither
`"/backup"` itself nor inside the `"/backup"` subtree: the containment test
uses plain string `startsWith`, which admits sibling directories sharing the
base directory as a string prefix. -/
theorem isPathSafe_sibling_escape :
    isPathSafe "../backup2/evil" "/backup" = true ∧
    posixNormalize (posixJoin "/backup" (replaceBackslashes "../backup2/evil"))
      = "/backup2/evil" ∧
    jsStartsWithL ("/backup2/evil").data ("/backup/").data = false ∧
    ("/backup2/evil" : String) ≠ "/backup" := by
  refine ⟨by decide, by decide, by decide, by decide⟩

/-- C2 as stated is false: the rejection of `"../../../etc/passwd"` does not
hold regardless of the base directory.  Against base `"/etc"` the traversal
path lexically re-enters the base (`/etc/../../../etc/passwd` normalizes to
`/etc/passwd`), so `isPathSafe` returns `true`. -/
theorem isPathSafe_traversal_counterexample :
    isPathSafe "../../../etc/passwd" "/etc" = true := by decide

/-- C2 (amended): `isPathSafe` returns false for `""`, `"."`, `".."`,
`"/etc/passwd"`, `"C:\\Windows\\System32"` and every string containing a null
byte regardless of the base directory; it returns false for
`"../../../etc/passwd"` against the ordinary base `"/backup"` (not against
every base); and it returns true for `"notes/my-note.md"` and
`"a/b/c/d/deep.md"` against `"/backup"`. -/
theorem isPathSafe_fixtures :
    (∀ baseDir : String, isPathSafe "" baseDir = false) ∧
    (∀ baseDir : String, isPathSafe "." baseDir = false) ∧
    (∀ baseDir : String, isPathSafe ".." baseDir = false) ∧
    (∀ baseDir : String, isPathSafe "/etc/passwd" baseDir = false) ∧
    (∀ baseDir : String, isPathSafe "C:\\Windows\\System32" baseDir = false) ∧
    (∀ (s baseDir : String), '\x00' ∈ s.data → isPathSafe s baseDir = false) ∧
    isPathSafe "../../../etc/passwd" "/backup" = false ∧
    isPathSafe "notes/my-note.md" "/backup" = true ∧
    isPathSafe "a/b/c/d/deep.md" "/backup" = true := by
  refine ⟨fun _ => rfl, fun _ => rfl, fun _ => rfl, fun _ => rfl, fun _ => rfl,
    ?_, by decide, by decide, by decide⟩
  intro s baseDir h
  have hne : s.data ≠ [] := List.ne_nil_of_mem h
  have hws : jsWsChar '\x00' = false := by decide
  have htr : trimEnds s.data ≠ [] := List.ne_nil_of_mem (mem_trimEnds hws h)
  simp only [isPathSafe]
  rw [if_neg (not_or.mpr ⟨hne, htr⟩), if_pos h]

/-- Witness for the amended C2 at a concrete input: a string with an embedded
null byte is rejected against a concrete base directory. -/
theorem isPathSafe_fixtures_witness :
    '\x00' ∈ ("evil\x00name" : String).data ∧
    isPathSafe "evil\x00name" "/anywhere" = false :=
  ⟨by decide, isPathSafe_fixtures.2.2.2.2.2.1 "evil\x00name" "/anywhere" (by decide)⟩

/-! ## Crypto module (src/crypto.ts)

The WebCrypto primitives are the platform boundary.  A derived key is
represented symbolically by the inputs that determine it (WebCrypto key
derivation is deterministic), and a decoder returns the exact authenticated
decryption request (key-derivation inputs, IV, ciphertext with tag) that the
source hands to `crypto.subtle.decrypt`. -/

/-- `PBKDF2_ITERATIONS` from crypto.ts (master-key stretch). -/
def PBKDF2_ITERATIONS : Nat := 310000

/-- `V2_LEGACY_ITERATIONS` from crypto.ts (legacy per-chunk derivation). -/
def V2_LEGACY_ITERATIONS : Nat := 100000

/-- JS hex digit (`[0-9a-fA-F]`) with its value. -/
def hexDigitVal (c : Char) : Option Nat :=
  if decide ('0' ≤ c) && decide (c ≤ '9') then some (c.toNat - '0'.toNat)
  else if decide ('a' ≤ c) && decide (c ≤ 'f') then some (c.toNat - 'a'.toNat + 10)
  else if decide ('A' ≤ c) && decide (c ≤ 'F') then some (c.toNat - 'A'.toNat + 10)
  else none

/-- JS `parseInt(s, 16)`: skip leading whitespace, optional sign, optional
`0x`/`0X`, then the longest hex-digit run; `none` models `NaN`. -/
def jsParseIntHex (cs : List Char) : Option Int :=
  let cs1 := cs.dropWhile jsWsChar
  let sign : Int := match cs1 with | '-' :: _ => -1 | _ => 1
  let cs2 := match cs1 with | '-' :: r => r | '+' :: r => r | _ => cs1
  let cs3 := match cs2 with
    | '0' :: 'x' :: r => r
    | '0' :: 'X' :: r => r
    | _ => cs2
  let digits := cs3.takeWhile (fun c => (hexDigitVal c).isSome)
  if digits = [] then none
  else
    some (sign * (digits.foldl (fun a c => a * 16 + (((hexDigitVal c).getD 0 : Nat) : Int)) 0))

/-- One byte of `hexStringToUint8Array`: `parseInt(substr, 16)` stored into a
`Uint8Array` slot (NaN becomes 0, other values are taken mod 2^8). -/
def hexPairByte (c1 c2 : Char) : Nat :=
  match jsParseIntHex [c1, c2] with
  | none => 0
  | some i => (i.emod 256).toNat

/-- `hexStringToUint8Array` from crypto.ts: decode consecutive 2-character
groups (`new Uint8Array(len / 2)` with `substr(i, 2)` parsing). -/
def hexStringToBytes : List Char → List Nat
  | c1 :: c2 :: rest => hexPairByte c1 c2 :: hexStringToBytes rest
  | _ => []

/-- ASCII whitespace removed by forgiving-base64 (`atob`). -/
def asciiWsChar (c : Char) : Bool :=
  c == ' ' || c == '\t' || c == '\n' || c == '\x0c' || c == '\r'

/-- Standard base64 alphabet value. -/
def b64CharVal (c : Char) : Option Nat :=
  if decide ('A' ≤ c) && decide (c ≤ 'Z') then some (c.toNat - 'A'.toNat)
  else if decide ('a' ≤ c) && decide (c ≤ 'z') then some (c.toNat - 'a'.toNat + 26)
  else if decide ('0' ≤ c) && decide (c ≤ '9') then some (c.toNat - '0'.toNat + 52)
  else if c == '+' then some 62
  else if c == '/' then some 63
  else none

/-- Forgiving-base64 step: remove one or two trailing `=`. -/
def stripPad (l : List Char) : List Char :=
  match l.reverse with
  | '=' :: '=' :: r => r.reverse
  | '=' :: r => r.reverse
  | _ => l

/-- Decode 6-bit groups into bytes (4 → 3; trailing 2 → 1; trailing 3 → 2;
leftover bits discarded, as in forgiving-base64). -/
def b64Groups : List Nat → List Nat
  | a :: b :: c :: d :: rest =>
    let n := ((a * 64 + b) * 64 + c) * 64 + d
    n / 65536 :: n / 256 % 256 :: n % 256 :: b64Groups rest
  | [a, b] => [(a * 64 + b) / 16]
  | [a, b, c] => [((a * 64 + b) * 64 + c) / 1024, ((a * 64 + b) * 64 + c) / 4 % 256]
  | _ => []

/-- JS `atob` (WHATWG forgiving-base64 decode): strip ASCII whitespace,
strip up to two trailing `=` when the length is a multiple of 4, reject a
length remainder of 1 and any character outside the alphabet. -/
def atobForgiving (l : List Char) : Except String (List Nat) :=
  let data := l.filter (fun c => !(asciiWsChar c))
  let data := if data.length % 4 = 0 then stripPad data else data
  if data.length % 4 = 1 then
    .error "InvalidCharacterError: the string to be decoded is not correctly encoded"
  else
    match data.mapM b64CharVal with
    | none =>
      .error "InvalidCharacterError: the string to be decoded is not correctly encoded"
    | some vals => .ok (b64Groups vals)

/-- JS `s.replace(/=+$/, "")`. -/
def stripTrailingEquals (l : List Char) : List Char :=
  (l.reverse.dropWhile (· == '=')).reverse

/-- The padding fix in crypto.ts: re-pad to a multiple of four. -/
def padBase64 (l : List Char) : List Char :=
  l ++ List.replicate ((4 - l.length % 4) % 4) '='

/-- The cacheable master key: symbolic output of the expensive
`PBKDF2-SHA256(passphrase, globalSalt, PBKDF2_ITERATIONS)` stretch followed
by the HKDF import, determined by its two inputs. -/
structure MasterKey where
  passphrase : String
  salt : List Nat
deriving DecidableEq, Repr

/-- The key-derivation request for one chunk, handed to WebCrypto:
either the legacy `PBKDF2-SHA256(SHA-256(passphrase), chunkSalt, iterations)`
derivation of `deriveV2LegacyKey`, or the fast HKDF-SHA256 expand of
`deriveChunkKeyHKDF` keyed by the cached master key and salted by the
per-chunk salt.  (The legacy per-(passphrase, salt) cache in crypto.ts only
avoids recomputation; the derived key value is determined by these inputs.) -/
inductive ChunkKey
  | legacy (passphrase : String) (iterations : Nat) (salt : List Nat)
  | hkdf (master : MasterKey) (hkdfSalt : List Nat)
deriving DecidableEq, Repr

/-- The exact AES-256-GCM request (128-bit tag) a decoder hands to
`crypto.subtle.decrypt`. -/
structure DecryptRequest where
  key : ChunkKey
  iv : List Nat
  ciphertextWithTag : List Nat
deriving DecidableEq, Repr

/-- The module-level mutable state of crypto.ts: `globalPBKDF2Salt`,
`cachedHKDFKey`, `cachedPassphrase`. -/
structure CryptoState where
  globalPBKDF2Salt : Option (List Nat)
  cachedHKDFKey : Option MasterKey
  cachedPassphrase : Option String
deriving DecidableEq, Repr

/-- `setPBKDF2Salt` from crypto.ts: store the salt and clear the cache. -/
def setPBKDF2Salt (salt : List Nat) (_st : CryptoState) : CryptoState :=
  { globalPBKDF2Salt := some salt, cachedHKDFKey := none, cachedPassphrase := none }

/-- The cache-miss path of `getHKDFMasterKey`: fail without a global salt,
otherwise derive and cache the master key. -/
def deriveMasterKeyFresh (passphrase : String) (st : CryptoState) :
    Except String (MasterKey × CryptoState) :=
  match st.globalPBKDF2Salt with
  | none => .error "PBKDF2 salt not set. Call setPBKDF2Salt first."
  | some salt =>
    let key : MasterKey := { passphrase := passphrase, salt := salt }
    .ok (key, { st with cachedHKDFKey := some key, cachedPassphrase := some passphrase })

/-- `getHKDFMasterKey` from crypto.ts: when a key is cached and
`cachedPassphrase === passphrase` (which for the nullable JS variable means
it holds exactly this passphrase), return the cached key; otherwise perform
the expensive derivation. -/
def getHKDFMasterKey (passphrase : String) (st : CryptoState) :
    Except String (MasterKey × CryptoState) :=
  match st.cachedHKDFKey with
  | some key =>
    if st.cachedPassphrase = some passphrase then .ok (key, st)
    else deriveMasterKeyFresh passphrase st
  | none => deriveMasterKeyFresh passphrase st

/-- `decryptHKDF` from crypto.ts: strip the two-character `%=` prefix,
fix padding, `atob`, require at least 60 bytes (12 IV + 32 salt + 16 tag),
split `iv(12) + hkdfSalt(32) + ciphertext‖tag`, derive via the cached master
key + HKDF expand, and return the AES-GCM request. -/
def decryptHKDF (encryptedData passphrase : String) (st : CryptoState) :
    Except String (DecryptRequest × CryptoState) :=
  let base64Part := stripTrailingEquals (encryptedData.data.drop 2)
  let padded := padBase64 base64Part
  match atobForgiving padded with
  | .error e => .error e
  | .ok binaryData =>
    if binaryData.length < 60 then
      .error ("Encrypted data too short: " ++ toString binaryData.length ++ " bytes")
    else
      match getHKDFMasterKey passphrase st with
      | .error e => .error e
      | .ok (master, st') =>
        .ok ({ key := ChunkKey.hkdf master ((binaryData.drop 12).take 32),
               iv := binaryData.take 12,
               ciphertextWithTag := binaryData.drop 44 }, st')

/-- `decryptV2Legacy` from crypto.ts: strip the one-character `%` prefix,
require at least 65 characters (32 hex IV + 32 hex salt + base64), hex-decode
IV and salt, base64-decode the ciphertext (with padding fix), derive the
legacy key (`PBKDF2(SHA-256(passphrase), salt, 100000)`), and return the
AES-GCM request. -/
def decryptV2Legacy (encryptedData passphrase : String) (st : CryptoState) :
    Except String (DecryptRequest × CryptoState) :=
  let data := encryptedData.data.drop 1
  if data.length < 65 then
    .error ("V2 legacy data too short: " ++ toString data.length ++ " chars")
  else
    let ivHex := data.take 32
    let saltHex := (data.drop 32).take 32
    let base64Ciphertext := data.drop 64
    let iv := hexStringToBytes ivHex
    let salt := hexStringToBytes saltHex
    let padded := padBase64 (stripTrailingEquals base64Ciphertext)
    match atobForgiving padded with
    | .error e => .error e
    | .ok ciphertextWithTag =>
      .ok ({ key := ChunkKey.legacy passphrase V2_LEGACY_ITERATIONS salt,
             iv := iv, ciphertextWithTag := ciphertextWithTag }, st)

/-- The regex test `/^[0-9a-fA-F]{32}$/` applied to the first 32 characters
after the `%` prefix. -/
def hex32Test (l : List Char) : Bool :=
  decide ((l.take 32).length = 32) && (l.take 32).all (fun c => (hexDigitVal c).isSome)

/-- `decryptV2` from crypto.ts: dispatch on the prefix; for a bare `%`, use
the 32-hex-character heuristic to choose between the legacy decoder and the
HKDF decoder run on `"%=" + afterPrefix`. -/
def decryptV2 (encryptedData passphrase : String) (st : CryptoState) :
    Except String (DecryptRequest × CryptoState) :=
  if jsStartsWithL encryptedData.data ['%', '='] = true then
    decryptHKDF encryptedData passphrase st
  else if jsStartsWithL encryptedData.data ['%'] = true then
    let afterMark := encryptedData.data.drop 1
    if hex32Test afterMark = true then
      decryptV2Legacy encryptedData passphrase st
    else
      decryptHKDF (String.mk ('%' :: '=' :: afterMark)) passphrase st
  else .error "Not encrypted data (missing % or %= prefix)"

/-- `isV2Encrypted` from crypto.ts. -/
def isV2Encrypted (data : String) : Bool :=
  jsStartsWithL data.data ['%', '='] || jsStartsWithL data.data ['%']

/-- Outcome of `decryptChunk`: plaintext passed through unchanged, or the
decryption request produced for an encrypted chunk. -/
inductive ChunkResult
  | plaintext (data : String)
  | encrypted (req : DecryptRequest)
deriving DecidableEq, Repr

/-- `decryptChunk` from crypto.ts: pass unencrypted data through unchanged,
otherwise decrypt via `decryptV2`. -/
def decryptChunk (data passphrase : String) (st : CryptoState) :
    Except String (ChunkResult × CryptoState) :=
  if isV2Encrypted data = false then .ok (ChunkResult.plaintext data, st)
  else
    match decryptV2 data passphrase st with
    | .error e => .error e
    | .ok (req, st') => .ok (ChunkResult.encrypted req, st')

example : atobForgiving ("AAAA".data) = .ok [0, 0, 0] := by rfl
example : atobForgiving (padBase64 (stripTrailingEquals ("dG9vc2hvcnQ=".data)))
    = .ok [116, 111, 111, 115, 104, 111, 114, 116] := by rfl
example : hexStringToBytes ("0aff".data) = [10, 255] := by rfl
example : hex32Test ("00112233445566778899aabbccddeeffXYZ".data) = true := by rfl
example : hex32Test ("00112233445566778899aabbccddeegg".data) = false := by rfl

/-- C3: for every payload starting with `%` but not `%=`, `decryptV2`
inspects the 32 characters immediately following the prefix: if all 32 are
hexadecimal digits it decodes with the legacy decoder (hex IV, hex salt,
100000-iteration PBKDF2 over SHA-256 of the passphrase); otherwise it decodes
the payload as the HKDF-expand layout with the prefix made explicit (base64
body, 12-byte IV, 32-byte per-chunk salt, cached master key + HKDF expand). -/
theorem decryptV2_overloaded_dispatch (s passphrase : String) (st : CryptoState)
    (h1 : jsStartsWithL s.data ['%'] = true)
    (h2 : jsStartsWithL s.data ['%', '='] = false) :
    (hex32Test (s.data.drop 1) = true →
      decryptV2 s passphrase st = decryptV2Legacy s passphrase st) ∧
    (hex32Test (s.data.drop 1) = false →
      decryptV2 s passphrase st
        = decryptHKDF (String.mk ('%' :: '=' :: s.data.drop 1)) passphrase st) ∧
    (∀ req st', decryptV2Legacy s passphrase st = .ok (req, st') →
      req.key = ChunkKey.legacy passphrase 100000
        (hexStringToBytes (((s.data.drop 1).drop 32).take 32)) ∧
      req.iv = hexStringToBytes ((s.data.drop 1).take 32)) ∧
    (∀ t req st', decryptHKDF t passphrase st = .ok (req, st') →
      ∃ master chunkSalt, req.key = ChunkKey.hkdf master chunkSalt ∧
        chunkSalt.length = 32 ∧ req.iv.length = 12) := by
  refine ⟨?_, ?_, ?_, ?_⟩
  · intro hhex
    rw [List.drop_one] at hhex
    simp only [decryptV2, h1, h2]
    simp [hhex]
  · intro hhex
    rw [List.drop_one] at hhex
    simp only [decryptV2, h1, h2]
    simp [hhex]
  · intro req st' h
    simp only [decryptV2Legacy] at h
    split at h
    · exact absurd h (by simp)
    · split at h
      · exact absurd h (by simp)
      · rename_i heq
        simp only [Except.ok.injEq, Prod.mk.injEq] at h
        obtain ⟨h3, h4⟩ := h
        subst h3
        exact ⟨rfl, rfl⟩
  · intro t req st' h
    simp only [decryptHKDF] at h
    split at h
    · exact absurd h (by simp)
    · rename_i binaryData hbin
      split at h
      · exact absurd h (by simp)
      · rename_i hlen
        split at h
        · exact absurd h (by simp)
        · rename_i master st'' hmk
          simp only [Except.ok.injEq, Prod.mk.injEq] at h
          obtain ⟨hreq, _⟩ := h
          subst hreq
          refine ⟨master, _, rfl, ?_, ?_⟩
          · rw [List.length_take, List.length_drop]
            omega
          · rw [List.length_take]
            omega

/-- Witness for C3 at a concrete input: a `%` payload whose next 32
characters are all hex digits is routed to the legacy decoder. -/
theorem decryptV2_overloaded_dispatch_witness :
    decryptV2 "%00112233445566778899aabbccddeeff" "pw" ⟨none, none, none⟩
      = decryptV2Legacy "%00112233445566778899aabbccddeeff" "pw" ⟨none, none, none⟩ :=
  (decryptV2_overloaded_dispatch "%00112233445566778899aabbccddeeff" "pw"
    ⟨none, none, none⟩ (by decide) (by decide)).1 (by decide)

/-- Shape of every successful fresh master-key derivation: it requires a
configured global salt, computes the key from (passphrase, salt), and caches
both the key and the passphrase. -/
theorem deriveMasterKeyFresh_ok {passphrase : String} {st : CryptoState}
    {key : MasterKey} {st' : CryptoState}
    (h : deriveMasterKeyFresh passphrase st = .ok (key, st')) :
    ∃ salt, st.globalPBKDF2Salt = some salt ∧ key = ⟨passphrase, salt⟩ ∧
      st' = { st with cachedHKDFKey := some key,
                      cachedPassphrase := some passphrase } := by
  unfold deriveMasterKeyFresh at h
  cases hgs : st.globalPBKDF2Salt with
  | none => rw [hgs] at h; exact absurd h (by simp)
  | some salt =>
    rw [hgs] at h
    simp only [Except.ok.injEq, Prod.mk.injEq] at h
    obtain ⟨h1, h2⟩ := h
    subst h1
    subst h2
    exact ⟨salt, rfl, rfl, rfl⟩

/-- A derivation against a state whose cache holds this passphrase is served
from the cache, leaving the state unchanged. -/
theorem getHKDFMasterKey_cached {passphrase : String} {st : CryptoState}
    {key : MasterKey} (h1 : st.cachedHKDFKey = some key)
    (h2 : st.cachedPassphrase = some passphrase) :
    getHKDFMasterKey passphrase st = .ok (key, st) := by
  unfold getHKDFMasterKey
  rw [h1]
  simp [h2]

/-- C5: the master-key cache is coherent and invalidated wholesale.
(1) After a successful derivation, deriving again with the same passphrase
(the global salt unchanged) returns the identical key and state — the second
call is served from the cache.  (2) `setPBKDF2Salt` clears both cache fields
unconditionally, even when the passphrase is unchanged.  (3) The derivation
after `setPBKDF2Salt salt` recomputes the master key from the new salt.
(4) If the new salt differs from the cached key's salt, the recomputed key is
never the stale cached key. -/
theorem masterKey_cache_coherence (passphrase : String) (st : CryptoState)
    (salt : List Nat) :
    (∀ key st', getHKDFMasterKey passphrase st = .ok (key, st') →
      getHKDFMasterKey passphrase st' = .ok (key, st')) ∧
    ((setPBKDF2Salt salt st).cachedHKDFKey = none ∧
      (setPBKDF2Salt salt st).cachedPassphrase = none) ∧
    (∃ st', getHKDFMasterKey passphrase (setPBKDF2Salt salt st)
        = .ok (⟨passphrase, salt⟩, st')) ∧
    (∀ keyOld, st.cachedHKDFKey = some keyOld → keyOld.salt ≠ salt →
      ∀ key st', getHKDFMasterKey passphrase (setPBKDF2Salt salt st)
          = .ok (key, st') → key ≠ keyOld) := by
  refine ⟨?_, ⟨rfl, rfl⟩, ⟨_, rfl⟩, ?_⟩
  · intro key st' h
    unfold getHKDFMasterKey at h
    cases hck : st.cachedHKDFKey with
    | some key0 =>
      rw [hck] at h
      simp only at h
      by_cases hcp : st.cachedPassphrase = some passphrase
      · rw [if_pos hcp] at h
        simp only [Except.ok.injEq, Prod.mk.injEq] at h
        obtain ⟨rfl, rfl⟩ := h
        exact getHKDFMasterKey_cached hck hcp
      · rw [if_neg hcp] at h
        obtain ⟨s0, _, _, hst⟩ := deriveMasterKeyFresh_ok h
        subst hst
        exact getHKDFMasterKey_cached rfl rfl
    | none =>
      rw [hck] at h
      simp only at h
      obtain ⟨s0, _, _, hst⟩ := deriveMasterKeyFresh_ok h
      subst hst
      exact getHKDFMasterKey_cached rfl rfl
  · intro keyOld hck hsalt key st' h
    have hcomp : getHKDFMasterKey passphrase (setPBKDF2Salt salt st)
        = .ok (⟨passphrase, salt⟩,
            ⟨some salt, some ⟨passphrase, salt⟩, some passphrase⟩) := rfl
    rw [hcomp] at h
    simp only [Except.ok.injEq, Prod.mk.injEq] at h
    obtain ⟨rfl, _⟩ := h
    intro he
    apply hsalt
    rw [← he]

/-- Witness for C5 at concrete inputs: the first derivation under salt
`[1, 2]` caches the key, the second returns the same key from the cache, and
after `setPBKDF2Salt [9]` the rederived key is computed from the new salt. -/
theorem masterKey_cache_coherence_witness :
    getHKDFMasterKey "pw" ⟨some [1, 2], some ⟨"pw", [1, 2]⟩, some "pw"⟩
      = .ok (⟨"pw", [1, 2]⟩, ⟨some [1, 2], some ⟨"pw", [1, 2]⟩, some "pw"⟩) ∧
    (∃ st', getHKDFMasterKey "pw"
        (setPBKDF2Salt [9] ⟨some [1, 2], some ⟨"pw", [1, 2]⟩, some "pw"⟩)
      = .ok (⟨"pw", [9]⟩, st')) :=
  ⟨(masterKey_cache_coherence "pw" ⟨some [1, 2], none, none⟩ [1, 2]).1
      ⟨"pw", [1, 2]⟩ ⟨some [1, 2], some ⟨"pw", [1, 2]⟩, some "pw"⟩ rfl,
    (masterKey_cache_coherence "pw"
      ⟨some [1, 2], some ⟨"pw", [1, 2]⟩, some "pw"⟩ [9]).2.2.1⟩

/-- C6: every input string starting with neither `%=` nor `%` is classified
as plaintext, and `decryptChunk` returns it unchanged for every passphrase,
with no decoding, no key derivation and no state change. -/
theorem decryptChunk_plaintext_passthrough (data passphrase : String)
    (st : CryptoState)
    (h1 : jsStartsWithL data.data ['%', '='] = false)
    (h2 : jsStartsWithL data.data ['%'] = false) :
    decryptChunk data passphrase st = .ok (ChunkResult.plaintext data, st) := by
  unfold decryptChunk isV2Encrypted
  rw [h1, h2]
  simp

/-- Witness for C6 at a concrete input. -/
theorem decryptChunk_plaintext_passthrough_witness :
    decryptChunk "This is not encrypted" "any-passphrase" ⟨none, none, none⟩
      = .ok (ChunkResult.plaintext "This is not encrypted", ⟨none, none, none⟩) :=
  decryptChunk_plaintext_passthrough "This is not encrypted" "any-passphrase"
    ⟨none, none, none⟩ (by decide) (by decide)

/-- C7: payloads below the format minimum are rejected as malformed before
any authenticated decryption request is produced: an HKDF-expand payload
whose base64 body decodes to fewer than 60 bytes, and a legacy payload whose
text after the prefix is shorter than 65 characters, both yield the
too-short error. -/
theorem decrypt_minimum_length_rejection (s t passphrase : String)
    (st : CryptoState)
    (h1 : jsStartsWithL s.data ['%', '='] = true)
    (h2 : jsStartsWithL t.data ['%'] = true) :
    (∀ bytes, atobForgiving (padBase64 (stripTrailingEquals (s.data.drop 2)))
        = .ok bytes → bytes.length < 60 →
      decryptHKDF s passphrase st
        = .error ("Encrypted data too short: " ++ toString bytes.length ++ " bytes")) ∧
    ((t.data.drop 1).length < 65 →
      decryptV2Legacy t passphrase st
        = .error ("V2 legacy data too short: "
            ++ toString (t.data.drop 1).length ++ " chars")) := by
  constructor
  · intro bytes hdec hlen
    unfold decryptHKDF
    simp [hdec, hlen]
  · intro hlen
    unfold decryptV2Legacy
    rw [if_pos hlen]

/-- Witness for C7 at concrete inputs: `"%=AAAA"` decodes to 3 bytes and is
rejected; `"%x"` has 1 character after the prefix and is rejected. -/
theorem decrypt_minimum_length_rejection_witness :
    decryptHKDF "%=AAAA" "pw" ⟨none, none, none⟩
      = .error ("Encrypted data too short: " ++ toString (3 : Nat) ++ " bytes") ∧
    decryptV2Legacy "%x" "pw" ⟨none, none, none⟩
      = .error ("V2 legacy data too short: " ++ toString (1 : Nat) ++ " chars") :=
  ⟨(decrypt_minimum_length_rejection "%=AAAA" "%x" "pw" ⟨none, none, none⟩
      (by decide) (by decide)).1 [0, 0, 0] rfl (by decide),
    (decrypt_minimum_length_rejection "%=AAAA" "%x" "pw" ⟨none, none, none⟩
      (by decide) (by decide)).2 (by decide)⟩

/-! ## Extractor (src/extractor.ts)

The chunk decryptor (`decryptChunk` imported from crypto.ts, whose plaintext
output for an encrypted chunk exists only beyond the WebCrypto boundary), the
prefetched chunk cache and the individual fallback fetch are passed in as
parameters; the filesystem write of `writeFileSafely` is modelled as an
emitted write record. -/

/-- `FileEntry` from couchdb.ts (the `eden` map is projected to each inline
chunk's `data` string). -/
structure FileEntry where
  _id : String
  _rev : String
  path : String
  ctime : Nat
  mtime : Nat
  size : Nat
  children : List String
  type : String
  eden : Option (List (String × String))
  deleted : Option Bool
deriving DecidableEq, Repr

/-- Key lookup in a JS object / `Map`, as an association list. -/
def lookupAssoc (m : List (String × String)) (k : String) : Option String :=
  match m with
  | [] => none
  | (k', v) :: rest => if k' = k then some v else lookupAssoc rest k

/-- The cache-then-fallback tail of `getChunkData`: the prefetched
`chunkCache`, then `client.getChunk` (whose thrown error is `none`). -/
def chunkFromCacheOrFetch (fetch : String → Option String)
    (cache : List (String × String)) (chunkId : String) : Option String :=
  match lookupAssoc cache chunkId with
  | some d => some d
  | none => fetch chunkId

/-- `getChunkData` from extractor.ts: eden chunk (inline in the document)
first, then the cache, then the individual fallback fetch. -/
def getChunkData (fetch : String → Option String)
    (cache : List (String × String)) (entry : FileEntry)
    (chunkId : String) : Option String :=
  match entry.eden with
  | some eden =>
    match lookupAssoc eden chunkId with
    | some d => some d
    | none => chunkFromCacheOrFetch fetch cache chunkId
  | none => chunkFromCacheOrFetch fetch cache chunkId

/-- The loop of `reassembleFile` over `entry.children`: resolve each chunk
(`if (!encryptedData)` treats both a missing chunk and an empty data string
as missing), decrypt it, and accumulate the plaintexts in children order;
the first failure aborts the document with its error. -/
def reassembleChunks (decrypt : String → Except String String)
    (fetch : String → Option String) (cache : List (String × String))
    (entry : FileEntry) : List String → Except String (List String)
  | [] => .ok []
  | chunkId :: rest =>
    match getChunkData fetch cache entry chunkId with
    | none => .error ("Missing chunk: " ++ chunkId)
    | some d =>
      if d = "" then .error ("Missing chunk: " ++ chunkId)
      else
        match decrypt d with
        | .error e => .error e
        | .ok pt =>
          match reassembleChunks decrypt fetch cache entry rest with
          | .error e => .error e
          | .ok pts => .ok (pt :: pts)

/-- `reassembleFile` from extractor.ts: `decryptedChunks.join("")`. -/
def reassembleFile (decrypt : String → Except String String)
    (fetch : String → Option String) (cache : List (String × String))
    (entry : FileEntry) : Except String String :=
  match reassembleChunks decrypt fetch cache entry entry.children with
  | .error e => .error e
  | .ok pts => .ok (String.join pts)

/-- A filesystem write performed by `writeFileSafely`: the raw relative path
argument (the document `_id`), the full path written
(`join(baseDir, sanitizePath(relativePath))`), and the content. -/
structure FsWrite where
  relPath : String
  fullPath : String
  content : String
deriving DecidableEq, Repr

/-- `writeFileSafely` from extractor.ts: validate with `isPathSafe` (throw
`Unsafe path rejected` otherwise), then sanitize, join and write. -/
def writeFileSafely (baseDir relativePath content : String) :
    Except String FsWrite :=
  if isPathSafe relativePath baseDir = false then
    .error ("Unsafe path rejected: " ++ relativePath)
  else
    .ok { relPath := relativePath,
          fullPath := posixJoin baseDir (sanitizePath relativePath),
          content := content }

/-- `ExtractionResult` from extractor.ts. -/
structure ExtractionResult where
  totalFiles : Nat
  extractedFiles : Nat
  failedFiles : List String
  skippedFiles : List String
deriving DecidableEq, Repr

/-- One iteration of `extractAll`'s loop: skip `.obsidian/` documents before
any processing; otherwise try reassembling and writing, counting a success
or pushing the document id onto `failedFiles` (the per-entry try/catch). -/
def extractStep (decrypt : String → Except String String)
    (fetch : String → Option String) (cache : List (String × String))
    (outputDir : String) (acc : ExtractionResult × List FsWrite)
    (entry : FileEntry) : ExtractionResult × List FsWrite :=
  let res := acc.1
  let ws := acc.2
  if jsStartsWithL entry._id.data (".obsidian/".data) = true then
    ({ res with skippedFiles := res.skippedFiles ++ [entry._id] }, ws)
  else
    match (match reassembleFile decrypt fetch cache entry with
           | .error e => (.error e : Except String FsWrite)
           | .ok content => writeFileSafely outputDir entry._id content) with
    | .error _ => ({ res with failedFiles := res.failedFiles ++ [entry._id] }, ws)
    | .ok w => ({ res with extractedFiles := res.extractedFiles + 1 }, ws ++ [w])

/-- `extractAll` from extractor.ts: `totalFiles` is the number of fetched
entries; the loop then processes every entry in order. -/
def extractAll (decrypt : String → Except String String)
    (fetch : String → Option String) (cache : List (String × String))
    (outputDir : String) (fileEntries : List FileEntry) :
    ExtractionResult × List FsWrite :=
  fileEntries.foldl (extractStep decrypt fetch cache outputDir)
    ({ totalFiles := fileEntries.length, extractedFiles := 0,
       failedFiles := [], skippedFiles := [] }, [])

/-- The outcome of processing a single entry, as a function of that entry
alone (and of the read-only decryptor, cache and fetch). -/
inductive EntryOutcome
  | skipped
  | extracted (w : FsWrite)
  | failed
deriving DecidableEq, Repr

/-- Per-entry outcome mirroring one `extractAll` iteration. -/
def entryOutcome (decrypt : String → Except String String)
    (fetch : String → Option String) (cache : List (String × String))
    (outputDir : String) (entry : FileEntry) : EntryOutcome :=
  if jsStartsWithL entry._id.data (".obsidian/".data) = true then .skipped
  else
    match (match reassembleFile decrypt fetch cache entry with
           | .error e => (.error e : Except String FsWrite)
           | .ok content => writeFileSafely outputDir entry._id content) with
    | .error _ => .failed
    | .ok w => .extracted w

/-- Whether an outcome is the skip outcome. -/
def isSkipped : EntryOutcome → Bool
  | .skipped => true
  | _ => false

/-- Whether an outcome is the failure outcome. -/
def isFailed : EntryOutcome → Bool
  | .failed => true
  | _ => false

/-- The write performed by an extracted outcome. -/
def writeOf : EntryOutcome → Option FsWrite
  | .extracted w => some w
  | _ => none

theorem reassembleChunks_ok (decrypt : String → Except String String)
    (fetch : String → Option String) (cache : List (String × String))
    (entry : FileEntry) (dat pt : String → String) :
    ∀ l, (∀ c ∈ l, getChunkData fetch cache entry c = some (dat c) ∧
        dat c ≠ "" ∧ decrypt (dat c) = .ok (pt c)) →
      reassembleChunks decrypt fetch cache entry l = .ok (l.map pt) := by
  intro l
  induction l with
  | nil => intro _; rfl
  | cons c rest ih =>
    intro h
    obtain ⟨h1, h2, h3⟩ := h c (List.mem_cons_self c rest)
    simp [reassembleChunks, h1, h3, if_neg h2,
      ih (fun x hx => h x (List.mem_cons_of_mem _ hx))]

theorem reassembleChunks_missing (decrypt : String → Except String String)
    (fetch : String → Option String) (cache : List (String × String))
    (entry : FileEntry) (dat pt : String → String) :
    ∀ pre c post, (∀ c' ∈ pre, getChunkData fetch cache entry c' = some (dat c') ∧
        dat c' ≠ "" ∧ decrypt (dat c') = .ok (pt c')) →
      getChunkData fetch cache entry c = none →
      reassembleChunks decrypt fetch cache entry (pre ++ c :: post)
        = .error ("Missing chunk: " ++ c) := by
  intro pre
  induction pre with
  | nil =>
    intro c post _ hmiss
    simp [reassembleChunks, hmiss]
  | cons c' rest ih =>
    intro c post h hmiss
    obtain ⟨h1, h2, h3⟩ := h c' (List.mem_cons_self _ _)
    simp [reassembleChunks, h1, h3, if_neg h2,
      ih c post (fun x hx => h x (List.mem_cons_of_mem _ hx)) hmiss]

/-- C4: when every chunk reference of a `FileEntry` resolves (to `dat c`,
non-empty) and decrypts (to `pt c`), the reassembled document is exactly the
concatenation of the decrypted plaintexts in the order of the `children`
list; and when a chunk reference resolves to no data (all references before
it resolving and decrypting), reassembly of the document aborts with the
error naming that missing chunk instead of skipping it. -/
theorem reassembleFile_order_and_missing
    (decrypt : String → Except String String) (fetch : String → Option String)
    (cache : List (String × String)) (entry : FileEntry)
    (dat pt : String → String) :
    ((∀ c ∈ entry.children, getChunkData fetch cache entry c = some (dat c) ∧
        dat c ≠ "" ∧ decrypt (dat c) = .ok (pt c)) →
      reassembleFile decrypt fetch cache entry
        = .ok (String.join (entry.children.map pt))) ∧
    (∀ pre c post, entry.children = pre ++ c :: post →
      (∀ c' ∈ pre, getChunkData fetch cache entry c' = some (dat c') ∧
        dat c' ≠ "" ∧ decrypt (dat c') = .ok (pt c')) →
      getChunkData fetch cache entry c = none →
      reassembleFile decrypt fetch cache entry
        = .error ("Missing chunk: " ++ c)) := by
  constructor
  · intro h
    unfold reassembleFile
    rw [reassembleChunks_ok decrypt fetch cache entry dat pt entry.children h]
  · intro pre c post hch h hmiss
    unfold reassembleFile
    rw [hch, reassembleChunks_missing decrypt fetch cache entry dat pt
      pre c post h hmiss]

/-- Witness for C4 at concrete inputs: a two-chunk entry (one cached chunk,
one inline eden chunk) reassembles to the in-order concatenation, and the
same entry with an unresolvable chunk reference aborts naming it. -/
theorem reassembleFile_order_and_missing_witness :
    reassembleFile (fun s => .ok s) (fun _ => none) [("h:a", "X")]
      ⟨"n.md", "", "n.md", 0, 0, 0, ["h:a", "e1"], "plain",
        some [("e1", "Y")], none⟩ = .ok "XY" ∧
    reassembleFile (fun s => .ok s) (fun _ => none) [("h:a", "X")]
      ⟨"n.md", "", "n.md", 0, 0, 0, ["h:a", "h:gone"], "plain",
        some [("e1", "Y")], none⟩ = .error "Missing chunk: h:gone" := by
  constructor
  · have := (reassembleFile_order_and_missing (fun s => .ok s) (fun _ => none)
      [("h:a", "X")]
      ⟨"n.md", "", "n.md", 0, 0, 0, ["h:a", "e1"], "plain",
        some [("e1", "Y")], none⟩
      (fun c => if c = "h:a" then "X" else "Y")
      (fun c => if c = "h:a" then "X" else "Y")).1 ?_
    · simpa using this
    · intro c hc
      fin_cases hc <;> exact ⟨rfl, by decide, rfl⟩
  · have := (reassembleFile_order_and_missing (fun s => .ok s) (fun _ => none)
      [("h:a", "X")]
      ⟨"n.md", "", "n.md", 0, 0, 0, ["h:a", "h:gone"], "plain",
        some [("e1", "Y")], none⟩
      (fun _ => "X") (fun _ => "X")).2 ["h:a"] "h:gone" [] rfl ?_ rfl
    · simpa using this
    · intro c hc
      fin_cases hc <;> exact ⟨rfl, by decide, rfl⟩

theorem extractStep_eq (decrypt : String → Except String String)
    (fetch : String → Option String) (cache : List (String × String))
    (outputDir : String) (acc : ExtractionResult × List FsWrite)
    (entry : FileEntry) :
    extractStep decrypt fetch cache outputDir acc entry =
      match entryOutcome decrypt fetch cache outputDir entry with
      | .skipped =>
        ({ acc.1 with skippedFiles := acc.1.skippedFiles ++ [entry._id] }, acc.2)
      | .failed =>
        ({ acc.1 with failedFiles := acc.1.failedFiles ++ [entry._id] }, acc.2)
      | .extracted w =>
        ({ acc.1 with extractedFiles := acc.1.extractedFiles + 1 }, acc.2 ++ [w]) := by
  unfold extractStep entryOutcome
  split
  · rfl
  · split <;> rfl

theorem extractAll_go (decrypt : String → Except String String)
    (fetch : String → Option String) (cache : List (String × String))
    (outputDir : String) :
    ∀ (entries : List FileEntry) (res : ExtractionResult) (ws : List FsWrite),
      entries.foldl (extractStep decrypt fetch cache outputDir) (res, ws) =
        ({ totalFiles := res.totalFiles,
           extractedFiles := res.extractedFiles + (entries.filter
             (fun e => (writeOf (entryOutcome decrypt fetch cache outputDir e)).isSome)).length,
           failedFiles := res.failedFiles ++ (entries.filter
             (fun e => isFailed (entryOutcome decrypt fetch cache outputDir e))).map
             (fun e => e._id),
           skippedFiles := res.skippedFiles ++ (entries.filter
             (fun e => isSkipped (entryOutcome decrypt fetch cache outputDir e))).map
             (fun e => e._id) },
         ws ++ entries.filterMap
           (fun e => writeOf (entryOutcome decrypt fetch cache outputDir e))) := by
  intro entries
  induction entries with
  | nil => intro res ws; simp
  | cons e rest ih =>
    intro res ws
    rw [List.foldl_cons, extractStep_eq]
    cases hout : entryOutcome decrypt fetch cache outputDir e with
    | skipped =>
      simp only [hout]
      rw [ih]
      simp [hout, isSkipped, isFailed, writeOf, List.filter_cons, List.filterMap_cons]
    | failed =>
      simp only [hout]
      rw [ih]
      simp [hout, isSkipped, isFailed, writeOf, List.filter_cons, List.filterMap_cons]
    | extracted w =>
      simp only [hout]
      rw [ih]
      simp [hout, isSkipped, isFailed, writeOf, List.filter_cons,
        List.filterMap_cons]
      try omega

/-- Decomposition of `extractAll`: the run never aborts, and each entry's
contribution is the per-entry outcome `entryOutcome` of that entry alone. -/
theorem extractAll_decomposed (decrypt : String → Except String String)
    (fetch : String → Option String) (cache : List (String × String))
    (outputDir : String) (entries : List FileEntry) :
    extractAll decrypt fetch cache outputDir entries =
      ({ totalFiles := entries.length,
         extractedFiles := (entries.filter
           (fun e => (writeOf (entryOutcome decrypt fetch cache outputDir e)).isSome)).length,
         failedFiles := (entries.filter
           (fun e => isFailed (entryOutcome decrypt fetch cache outputDir e))).map
           (fun e => e._id),
         skippedFiles := (entries.filter
           (fun e => isSkipped (entryOutcome decrypt fetch cache outputDir e))).map
           (fun e => e._id) },
       entries.filterMap
         (fun e => writeOf (entryOutcome decrypt fetch cache outputDir e))) := by
  unfold extractAll
  rw [extractAll_go]
  simp

/-- C8: per-document failures are isolated.  For every list of file entries,
`extractAll` equals the independent per-entry aggregation: every entry is
processed (the run is never aborted by a per-document error), the failed list
is exactly the ids of the entries whose own reassembly or write fails, and
every other entry's success or skip is unaffected — each entry's contribution
is a function of that entry alone. -/
theorem extractAll_per_document_isolation (decrypt : String → Except String String)
    (fetch : String → Option String) (cache : List (String × String))
    (outputDir : String) (entries : List FileEntry) :
    extractAll decrypt fetch cache outputDir entries =
      ({ totalFiles := entries.length,
         extractedFiles := (entries.filter
           (fun e => (writeOf (entryOutcome decrypt fetch cache outputDir e)).isSome)).length,
         failedFiles := (entries.filter
           (fun e => isFailed (entryOutcome decrypt fetch cache outputDir e))).map
           (fun e => e._id),
         skippedFiles := (entries.filter
           (fun e => isSkipped (entryOutcome decrypt fetch cache outputDir e))).map
           (fun e => e._id) },
       entries.filterMap
         (fun e => writeOf (entryOutcome decrypt fetch cache outputDir e))) :=
  extractAll_decomposed decrypt fetch cache outputDir entries

theorem entryOutcome_extracted {decrypt : String → Except String String}
    {fetch : String → Option String} {cache : List (String × String)}
    {outputDir : String} {e : FileEntry} {w : FsWrite}
    (h : entryOutcome decrypt fetch cache outputDir e = .extracted w) :
    jsStartsWithL e._id.data (".obsidian/".data) = false ∧ w.relPath = e._id := by
  unfold entryOutcome at h
  split at h
  · exact absurd h (by simp)
  · rename_i hpre
    refine ⟨Bool.eq_false_iff.mpr hpre, ?_⟩
    split at h
    · exact absurd h (by simp)
    · rename_i w0 hsc
      simp only [EntryOutcome.extracted.injEq] at h
      subst h
      split at hsc
      · exact absurd hsc (by simp)
      · rename_i content hre
        unfold writeFileSafely at hsc
        split at hsc
        · exact absurd hsc (by simp)
        · simp only [Except.ok.injEq] at hsc
          rw [← hsc]

/-- C10: `extractAll` never writes a file for a document whose identifier
starts with `.obsidian/`: every such entry is recorded in `skippedFiles`
before any reassembly or write, no id in `failedFiles` has that prefix, and
no emitted filesystem write originates from a relative path with that
prefix — the plugin-configuration subtree is excluded from the backup. -/
theorem extractAll_skips_obsidian (decrypt : String → Except String String)
    (fetch : String → Option String) (cache : List (String × String))
    (outputDir : String) (entries : List FileEntry) :
    (∀ e ∈ entries, jsStartsWithL e._id.data (".obsidian/".data) = true →
      e._id ∈ (extractAll decrypt fetch cache outputDir entries).1.skippedFiles) ∧
    (∀ id ∈ (extractAll decrypt fetch cache outputDir entries).1.failedFiles,
      jsStartsWithL id.data (".obsidian/".data) = false) ∧
    (∀ w ∈ (extractAll decrypt fetch cache outputDir entries).2,
      jsStartsWithL w.relPath.data (".obsidian/".data) = false) := by
  rw [extractAll_decomposed]
  refine ⟨?_, ?_, ?_⟩
  · intro e he hpre
    apply List.mem_map.mpr
    refine ⟨e, List.mem_filter.mpr ⟨he, ?_⟩, rfl⟩
    simp [entryOutcome, hpre, isSkipped]
  · intro id hid
    obtain ⟨e, hef, rfl⟩ := List.mem_map.mp hid
    obtain ⟨_, hfail⟩ := List.mem_filter.mp hef
    cases hjs : jsStartsWithL e._id.data (".obsidian/".data) with
    | false => rfl
    | true => simp [entryOutcome, hjs, isFailed] at hfail
  · intro w hw
    obtain ⟨e, _, hwr⟩ := List.mem_filterMap.mp hw
    have hex : entryOutcome decrypt fetch cache outputDir e = .extracted w := by
      cases hout : entryOutcome decrypt fetch cache outputDir e with
      | skipped => rw [hout] at hwr; exact absurd hwr (by simp [writeOf])
      | failed => rw [hout] at hwr; exact absurd hwr (by simp [writeOf])
      | extracted w0 =>
        rw [hout] at hwr
        simp only [writeOf, Option.some.injEq] at hwr
        rw [hwr]
    obtain ⟨hpre, hrel⟩ := entryOutcome_extracted hex
    rw [hrel]
    exact hpre

/-- Witness for C10 at a concrete input: a `.obsidian/` entry lands in
`skippedFiles`. -/
theorem extractAll_skips_obsidian_witness :
    ".obsidian/app.json" ∈ (extractAll (fun s => .ok s) (fun _ => none) []
      "/backup" [⟨".obsidian/app.json", "", ".obsidian/app.json", 0, 0, 0,
        [], "plain", none, none⟩]).1.skippedFiles :=
  (extractAll_skips_obsidian (fun s => .ok s) (fun _ => none) [] "/backup"
    [⟨".obsidian/app.json", "", ".obsidian/app.json", 0, 0, 0,
      [], "plain", none, none⟩]).1
    ⟨".obsidian/app.json", "", ".obsidian/app.json", 0, 0, 0,
      [], "plain", none, none⟩ (List.mem_singleton.mpr rfl) (by decide)
